import Mathlib

/-
Verification of the rich-text children module
(src/packages/blocks/src/api/children.js).

The module manipulates block children values: ordered lists whose items are
either plain strings (text runs) or opaque inline element nodes.  We embed the
data model and each exported function shallowly; JavaScript exceptions raised
by external collaborators are modelled with Option, and the in-place array
mutation performed by concat is additionally modelled with an explicit store
to settle the frame claim.
-/

namespace Children

/-- An item of a block children value.  A string fragment is `text`; any
non-string item (an element node produced by the external single-node
converter) is `inline`, carrying opaque attributes of type alpha and a
nested children list, which this module never inspects. -/
inductive Child (α : Type) : Type where
  | text : String → Child α
  | inline : α → List (Child α) → Child α

/-- An argument to `concat`: JavaScript callers may pass either a bare item
or an array of items. -/
inductive Arg (α : Type) : Type where
  | item : Child α → Arg α
  | seq : List (Child α) → Arg α

/-- Embedding of lodash castArray as used by `concat`: a bare item becomes a
one-element array, an array is kept as is. -/
def castArray {α : Type} : Arg α → List (Child α)
  | Arg.item c => [c]
  | Arg.seq l => l

/-- Test used by the `concat` loop: typeof child === string. -/
def isText {α : Type} : Child α → Bool
  | Child.text _ => true
  | Child.inline _ _ => false

/-- Body of the inner loop of `concat` in children.js: given the accumulator
`result` and the next `child`, append `child`, except that a string child is
string-appended onto the last accumulator entry when that entry is also a
string (result[result.length - 1] += child). -/
def step {α : Type} (result : List (Child α)) (child : Child α) : List (Child α) :=
  match child, result.getLast? with
  | Child.text s, some (Child.text t) => result.dropLast ++ [Child.text (t ++ s)]
  | _, _ => result ++ [child]

/-- Embedding of `concat` from children.js: iterate the arguments left to
right, castArray each, and fold every item through the loop body `step`,
starting from an empty result array. -/
def concat {α : Type} (blockNodes : List (Arg α)) : List (Child α) :=
  blockNodes.foldl (fun result blockNode => (castArray blockNode).foldl step result) []

/-- Specification-side merge of one item onto the front of an already-merged
list: two adjacent strings coalesce into one. -/
def ccons {α : Type} : Child α → List (Child α) → List (Child α)
  | Child.text s, Child.text u :: rest => Child.text (s ++ u) :: rest
  | c, l => c :: l

/-- Specification-side normaliser: coalesce every adjacent pair of string
items of a list, keeping everything else in order. -/
def coalesce {α : Type} (l : List (Child α)) : List (Child α) :=
  l.foldr ccons []

/-- Flattening of a `concat` argument list into its items, in argument order
and item order. -/
def flattenArgs {α : Type} (args : List (Arg α)) : List (Child α) :=
  (args.map castArray).flatten

/-- Decides whether a list has no two consecutive string items. -/
def noAdjacentText {α : Type} : List (Child α) → Bool
  | [] => true
  | [_] => true
  | a :: b :: rest => (!(isText a && isText b)) && noAdjacentText (b :: rest)

/-- Boundary merge of an accumulator with an already-merged suffix: if the
accumulator ends in a string and the suffix starts with one, the two boundary
strings coalesce. -/
def glue {α : Type} (acc l : List (Child α)) : List (Child α) :=
  match l, acc.getLast? with
  | Child.text s :: rest, some (Child.text t) => acc.dropLast ++ (Child.text (t ++ s) :: rest)
  | _, _ => acc ++ l

theorem glue_nil_left {α : Type} (l : List (Child α)) : glue [] l = l := by
  cases l with
  | nil => rfl
  | cons c rest => cases c <;> rfl

theorem glue_nil_right {α : Type} (acc : List (Child α)) : glue acc [] = acc := by
  simp [glue]

theorem step_glue {α : Type} (acc : List (Child α)) (c : Child α) (l : List (Child α)) :
    glue (step acc c) l = glue acc (ccons c l) := by
  rcases List.eq_nil_or_concat acc with rfl | ⟨acc', a, rfl⟩
  · cases c with
    | text s =>
      cases l with
      | nil => rfl
      | cons d rest =>
        cases d with
        | text u => simp [step, glue, ccons, List.getLast?_concat]
        | inline b ch => simp [step, glue, ccons, List.getLast?_concat]
    | inline b ch =>
      cases l with
      | nil => rfl
      | cons d rest =>
        cases d with
        | text u => simp [step, glue, ccons, List.getLast?_concat]
        | inline b2 ch2 => simp [step, glue, ccons, List.getLast?_concat]
  · simp only [List.concat_eq_append]
    cases a with
    | text t =>
      cases c with
      | text s =>
        cases l with
        | nil =>
          simp [step, glue, ccons, List.getLast?_concat, List.dropLast_concat]
        | cons d rest =>
          cases d with
          | text u =>
            simp [step, glue, ccons, List.getLast?_concat, List.dropLast_concat,
              String.append_assoc]
          | inline b ch =>
            simp [step, glue, ccons, List.getLast?_concat, List.dropLast_concat]
      | inline b ch =>
        cases l with
        | nil => simp [step, glue, ccons, List.getLast?_concat]
        | cons d rest =>
          cases d with
          | text u =>
            simp [step, glue, ccons, List.getLast?_concat, List.dropLast_concat]
          | inline b2 ch2 => simp [step, glue, ccons, List.getLast?_concat]
    | inline b0 ch0 =>
      cases c with
      | text s =>
        cases l with
        | nil => simp [step, glue, ccons, List.getLast?_concat]
        | cons d rest =>
          cases d with
          | text u =>
            simp [step, glue, ccons, List.getLast?_concat, List.dropLast_concat]
          | inline b ch => simp [step, glue, ccons, List.getLast?_concat]
      | inline b ch =>
        cases l with
        | nil => simp [step, glue, ccons, List.getLast?_concat]
        | cons d rest =>
          cases d with
          | text u =>
            simp [step, glue, ccons, List.getLast?_concat, List.dropLast_concat]
          | inline b2 ch2 => simp [step, glue, ccons, List.getLast?_concat]

theorem foldl_step_eq_glue {α : Type} (l : List (Child α)) :
    ∀ acc : List (Child α), List.foldl step acc l = glue acc (coalesce l) := by
  induction l with
  | nil => intro acc; simp [coalesce, glue_nil_right]
  | cons c rest ih =>
    intro acc
    have hc : coalesce (c :: rest) = ccons c (coalesce rest) := rfl
    calc List.foldl step acc (c :: rest)
        = List.foldl step (step acc c) rest := rfl
      _ = glue (step acc c) (coalesce rest) := ih (step acc c)
      _ = glue acc (ccons c (coalesce rest)) := step_glue acc c (coalesce rest)
      _ = glue acc (coalesce (c :: rest)) := by rw [hc]

theorem foldl_step_nil_eq_coalesce {α : Type} (l : List (Child α)) :
    List.foldl step [] l = coalesce l := by
  rw [foldl_step_eq_glue l [], glue_nil_left]

theorem concat_eq_foldl {α : Type} (args : List (Arg α)) :
    concat args = List.foldl step [] (flattenArgs args) := by
  unfold concat flattenArgs
  rw [List.foldl_flatten]
  rw [List.foldl_map]

theorem concat_eq_coalesce {α : Type} (args : List (Arg α)) :
    concat args = coalesce (flattenArgs args) := by
  rw [concat_eq_foldl, foldl_step_nil_eq_coalesce]

theorem noAdjacentText_ccons {α : Type} (c : Child α) (l : List (Child α))
    (h : noAdjacentText l = true) : noAdjacentText (ccons c l) = true := by
  cases l with
  | nil => cases c <;> simp [ccons, noAdjacentText]
  | cons d rest =>
    cases c with
    | text s =>
      cases d with
      | text u =>
        cases rest with
        | nil => simp [ccons, noAdjacentText]
        | cons e rest2 =>
          simp only [noAdjacentText, isText, Bool.and_eq_true, Bool.not_eq_true',
            Bool.true_and] at h
          simp [ccons, noAdjacentText, isText, h.1, h.2]
      | inline b ch =>
        simp only [ccons]
        simpa [noAdjacentText, isText] using h
    | inline b ch =>
      simp only [ccons]
      simpa [noAdjacentText, isText] using h

theorem noAdjacentText_coalesce {α : Type} (l : List (Child α)) :
    noAdjacentText (coalesce l) = true := by
  induction l with
  | nil => rfl
  | cons c rest ih => exact noAdjacentText_ccons c (coalesce rest) ih

theorem coalesce_of_noAdjacentText {α : Type} (l : List (Child α))
    (h : noAdjacentText l = true) : coalesce l = l := by
  induction l with
  | nil => rfl
  | cons c rest ih =>
    have hrest : noAdjacentText rest = true := by
      cases rest with
      | nil => rfl
      | cons d rest2 =>
        simp only [noAdjacentText, Bool.and_eq_true] at h
        exact h.2
    have hco : coalesce (c :: rest) = ccons c rest := by
      show ccons c (coalesce rest) = ccons c rest
      rw [ih hrest]
    rw [hco]
    cases rest with
    | nil => cases c <;> rfl
    | cons d rest2 =>
      cases c with
      | text s =>
        cases d with
        | text u =>
          simp [noAdjacentText, isText] at h
        | inline b ch => rfl
      | inline b ch => cases d <;> rfl

theorem coalesce_idem {α : Type} (l : List (Child α)) :
    coalesce (coalesce l) = coalesce l :=
  coalesce_of_noAdjacentText (coalesce l) (noAdjacentText_coalesce l)

theorem coalesce_append_glue {α : Type} (l m : List (Child α)) :
    coalesce (l ++ m) = glue (coalesce l) (coalesce m) := by
  rw [← foldl_step_nil_eq_coalesce (l ++ m), List.foldl_append,
    foldl_step_nil_eq_coalesce l, foldl_step_eq_glue]

theorem coalesce_coalesce_append {α : Type} (l m : List (Child α)) :
    coalesce (coalesce l ++ m) = coalesce (l ++ m) := by
  rw [coalesce_append_glue, coalesce_idem, ← coalesce_append_glue]

theorem coalesce_append_coalesce {α : Type} (l m : List (Child α)) :
    coalesce (l ++ coalesce m) = coalesce (l ++ m) := by
  rw [coalesce_append_glue, coalesce_idem, ← coalesce_append_glue]

theorem mem_inline_ccons {α : Type} (b : α) (ch : List (Child α)) (c : Child α)
    (l : List (Child α)) :
    Child.inline b ch ∈ ccons c l ↔ (Child.inline b ch = c ∨ Child.inline b ch ∈ l) := by
  cases l with
  | nil => cases c <;> simp [ccons]
  | cons d rest =>
    cases c with
    | text s =>
      cases d with
      | text u => simp [ccons]
      | inline b2 ch2 => simp [ccons]
    | inline b2 ch2 => cases d <;> simp [ccons]

theorem mem_inline_coalesce {α : Type} (b : α) (ch : List (Child α)) (l : List (Child α)) :
    Child.inline b ch ∈ coalesce l ↔ Child.inline b ch ∈ l := by
  induction l with
  | nil => simp [coalesce]
  | cons c rest ih =>
    show Child.inline b ch ∈ ccons c (coalesce rest) ↔ _
    rw [mem_inline_ccons, ih]
    simp

/-- C1: the output of `concat`, for every argument list of bare items and
item arrays, contains no two consecutive string items: adjacent text
fragments are always coalesced. -/
theorem concat_noAdjacentText {α : Type} (args : List (Arg α)) :
    noAdjacentText (concat args) = true := by
  rw [concat_eq_coalesce]
  exact noAdjacentText_coalesce (flattenArgs args)

/-- C2: `concat` equals flattening its arguments in argument order and item
order followed by coalescing of adjacent string pairs only; an empty array
argument contributes nothing, and an inline node occurs in the output exactly
as it occurs in the flattened input (inline nodes are never merged). -/
theorem concat_order_preservation {α : Type} (args : List (Arg α)) :
    concat args = coalesce (flattenArgs args) ∧
    (∀ pre post : List (Arg α), concat (pre ++ Arg.seq [] :: post) = concat (pre ++ post)) ∧
    (∀ (b : α) (ch : List (Child α)),
      Child.inline b ch ∈ concat args ↔ Child.inline b ch ∈ flattenArgs args) := by
  refine ⟨concat_eq_coalesce args, ?_, ?_⟩
  · intro pre post
    rw [concat_eq_coalesce, concat_eq_coalesce]
    have : flattenArgs (pre ++ Arg.seq [] :: post) = flattenArgs (pre ++ post) := by
      simp [flattenArgs, castArray]
    rw [this]
  · intro b ch
    rw [concat_eq_coalesce]
    exact mem_inline_coalesce b ch (flattenArgs args)

/-- C3: `concat` is idempotent as a normaliser: applying `concat` to the single
argument concat(a, b) returns concat(a, b) unchanged, for all arrays a, b. -/
theorem concat_idem {α : Type} (a b : List (Child α)) :
    concat [Arg.seq (concat [Arg.seq a, Arg.seq b])] = concat [Arg.seq a, Arg.seq b] := by
  have h1 : flattenArgs [Arg.seq (concat [Arg.seq a, Arg.seq b])]
      = concat [Arg.seq a, Arg.seq b] := by
    simp [flattenArgs, castArray]
  rw [concat_eq_coalesce [Arg.seq (concat [Arg.seq a, Arg.seq b])], h1,
    concat_eq_coalesce [Arg.seq a, Arg.seq b], coalesce_idem]

/-- C9: `concat` is associative in its variadic form: concat(concat(a, b), c)
and concat(a, concat(b, c)) both equal concat(a, b, c), for all arrays
a, b, c. -/
theorem concat_assoc {α : Type} (a b c : List (Child α)) :
    concat [Arg.seq (concat [Arg.seq a, Arg.seq b]), Arg.seq c]
        = concat [Arg.seq a, Arg.seq b, Arg.seq c] ∧
    concat [Arg.seq a, Arg.seq (concat [Arg.seq b, Arg.seq c])]
        = concat [Arg.seq a, Arg.seq b, Arg.seq c] := by
  have hab : concat [Arg.seq a, Arg.seq b] = coalesce (a ++ b) := by
    rw [concat_eq_coalesce]; simp [flattenArgs, castArray]
  have hbc : concat [Arg.seq b, Arg.seq c] = coalesce (b ++ c) := by
    rw [concat_eq_coalesce]; simp [flattenArgs, castArray]
  have habc : concat [Arg.seq a, Arg.seq b, Arg.seq c] = coalesce (a ++ (b ++ c)) := by
    rw [concat_eq_coalesce]; simp [flattenArgs, castArray]
  constructor
  · rw [concat_eq_coalesce, habc]
    have h2 : flattenArgs [Arg.seq (concat [Arg.seq a, Arg.seq b]), Arg.seq c]
        = coalesce (a ++ b) ++ c := by
      rw [hab]; simp [flattenArgs, castArray]
    rw [h2, coalesce_coalesce_append, List.append_assoc]
  · rw [concat_eq_coalesce, habc]
    have h2 : flattenArgs [Arg.seq a, Arg.seq (concat [Arg.seq b, Arg.seq c])]
        = a ++ coalesce (b ++ c) := by
      rw [hbc]; simp [flattenArgs, castArray]
    rw [h2, coalesce_append_coalesce]

/-- C10: calling `concat` with zero arguments returns the empty sequence. -/
theorem concat_nil {α : Type} : concat ([] : List (Arg α)) = [] := rfl

/-- Embedding of `fromDOM` from children.js.  The single-node conversion
collaborator node.fromDOM is abstract here: `convertOne` returns `none` when
the JavaScript converter raises.  The loop pushes each successful conversion
and the catch block ignores a failed one. -/
def fromDOM {δ α : Type} (convertOne : δ → Option (Child α)) (domNodes : List δ) :
    List (Child α) :=
  domNodes.foldl
    (fun result d =>
      match convertOne d with
      | some c => result ++ [c]
      | none => result)
    []

theorem fromDOM_foldl_acc {δ α : Type} (convertOne : δ → Option (Child α))
    (domNodes : List δ) :
    ∀ acc : List (Child α),
      domNodes.foldl
          (fun result d =>
            match convertOne d with
            | some c => result ++ [c]
            | none => result)
          acc
        = acc ++ domNodes.filterMap convertOne := by
  induction domNodes with
  | nil => intro acc; simp
  | cons d rest ih =>
    intro acc
    cases h : convertOne d with
    | some c => simp [List.foldl_cons, h, ih, List.filterMap_cons]
    | none => simp [List.foldl_cons, h, ih, List.filterMap_cons]

theorem fromDOM_eq_filterMap {δ α : Type} (convertOne : δ → Option (Child α))
    (domNodes : List δ) :
    fromDOM convertOne domNodes = domNodes.filterMap convertOne := by
  unfold fromDOM
  rw [fromDOM_foldl_acc]
  simp

/-- C4: `fromDOM` is total: with failing single-node conversions modelled as
`none`, the result is exactly the successful conversions in input order, each
failing node silently skipped, whatever the nodes and the converter. -/
theorem fromDOM_total {δ α : Type} (convertOne : δ → Option (Child α))
    (domNodes : List δ) :
    fromDOM convertOne domNodes = domNodes.filterMap convertOne :=
  fromDOM_eq_filterMap convertOne domNodes

theorem noAdjacentText_append_two_text {α : Type} (s t : String)
    (pre post : List (Child α)) :
    noAdjacentText (pre ++ Child.text s :: Child.text t :: post) = false := by
  induction pre with
  | nil => simp [noAdjacentText, isText]
  | cons c rest ih =>
    cases rest with
    | nil =>
      cases c <;> simp [noAdjacentText, isText, ih]
    | cons c2 rest2 =>
      simp only [List.cons_append, noAdjacentText, Bool.and_eq_false_iff]
      right
      simpa using ih

/-- C5: `fromDOM` performs no coalescing of its own: when two consecutive
source nodes both convert to strings, the result keeps them as two separate
adjacent items, and the no-adjacent-text invariant fails on the output. -/
theorem fromDOM_no_coalesce {δ α : Type} (convertOne : δ → Option (Child α))
    (pre post : List δ) (d1 d2 : δ) (s t : String)
    (h1 : convertOne d1 = some (Child.text s))
    (h2 : convertOne d2 = some (Child.text t)) :
    fromDOM convertOne (pre ++ d1 :: d2 :: post)
        = fromDOM convertOne pre ++ Child.text s :: Child.text t :: fromDOM convertOne post ∧
    noAdjacentText (fromDOM convertOne (pre ++ d1 :: d2 :: post)) = false := by
  have heq : fromDOM convertOne (pre ++ d1 :: d2 :: post)
      = fromDOM convertOne pre ++ Child.text s :: Child.text t :: fromDOM convertOne post := by
    rw [fromDOM_eq_filterMap, fromDOM_eq_filterMap, fromDOM_eq_filterMap,
      List.filterMap_append, List.filterMap_cons, List.filterMap_cons, h1, h2]
  exact ⟨heq, by rw [heq]; exact noAdjacentText_append_two_text s t _ _⟩

/-- Converter used by the concrete witnesses: node 0 converts to the string
x, node 1 to the string y, and every other node fails conversion. -/
def witnessConvert : Nat → Option (Child Unit)
  | 0 => some (Child.text "x")
  | 1 => some (Child.text "y")
  | _ => none

/-- C5 witness: with nodes 0 and 1 both converting to strings, fromDOM of the
node list holding 0 and 1 keeps the two strings as separate adjacent
items. -/
theorem fromDOM_no_coalesce_witness :
    fromDOM witnessConvert ([] ++ 0 :: 1 :: [])
        = fromDOM witnessConvert [] ++ Child.text "x" :: Child.text "y" :: fromDOM witnessConvert [] ∧
    noAdjacentText (fromDOM witnessConvert ([] ++ 0 :: 1 :: [])) = false :=
  fromDOM_no_coalesce witnessConvert [] [] 0 1 "x" "y" rfl rfl

/-- JavaScript truthiness of the selector argument of `matcher`: absent
(null or undefined) and empty-string selectors are falsy. -/
def truthySelector : Option String → Bool
  | none => false
  | some s => !(s == "")

/-- Embedding of `matcher` from children.js.  The DOM collaborators are
abstract: `querySelector` is the query capability of the root node (returning
`none` when nothing matches) and `childNodes` enumerates child nodes.  When
the selector is truthy the match target is the first descendant matching it,
otherwise the root itself; a found target yields fromDOM of its child nodes
and a missing one yields the empty list. -/
def matcher {δ α : Type} (querySelector : δ → String → Option δ)
    (childNodes : δ → List δ) (convertOne : δ → Option (Child α))
    (selector : Option String) (domNode : δ) : List (Child α) :=
  let m : Option δ :=
    if truthySelector selector then querySelector domNode (selector.getD "")
    else some domNode
  match m with
  | some n => fromDOM convertOne (childNodes n)
  | none => []

/-- C6: case analysis of `matcher`: a truthy selector whose query finds a
first descendant yields fromDOM of that descendant's child nodes; a truthy
selector with no match yields the empty list; a null or empty selector yields
fromDOM of the root's own child nodes. -/
theorem matcher_cases {δ α : Type} (querySelector : δ → String → Option δ)
    (childNodes : δ → List δ) (convertOne : δ → Option (Child α))
    (selector : Option String) (domNode : δ) :
    (∀ s n, selector = some s → s ≠ "" → querySelector domNode s = some n →
      matcher querySelector childNodes convertOne selector domNode
        = fromDOM convertOne (childNodes n)) ∧
    (∀ s, selector = some s → s ≠ "" → querySelector domNode s = none →
      matcher querySelector childNodes convertOne selector domNode = []) ∧
    (truthySelector selector = false →
      matcher querySelector childNodes convertOne selector domNode
        = fromDOM convertOne (childNodes domNode)) := by
  refine ⟨?_, ?_, ?_⟩
  · intro s n hsel hs hq
    subst hsel
    simp [matcher, truthySelector, hs, hq]
  · intro s hsel hs hq
    subst hsel
    simp [matcher, truthySelector, hs, hq]
  · intro hf
    simp [matcher, hf]

/-- Child-node map used by the matcher witness: the root node 10 has child
nodes 0 and 1, every other node has none. -/
def witnessChildNodes : Nat → List Nat
  | 10 => [0, 1]
  | _ => []

/-- Query map used by the matcher witness: no selector ever matches. -/
def witnessQuery : Nat → String → Option Nat := fun _ _ => none

/-- C6 witness: with the selector .body matching nothing the matcher returns
the empty list, and with a null selector it converts the root's child
nodes. -/
theorem matcher_cases_witness :
    matcher witnessQuery witnessChildNodes witnessConvert (some ".body") 10 = [] ∧
    matcher witnessQuery witnessChildNodes witnessConvert none 10
      = [Child.text "x", Child.text "y"] := by
  constructor
  · exact (matcher_cases witnessQuery witnessChildNodes witnessConvert
      (some ".body") 10).2.1 ".body" rfl (by decide) rfl
  · rw [(matcher_cases witnessQuery witnessChildNodes witnessConvert none 10).2.2 rfl]
    rfl

/-- Embedding of `getSerializeCapableElement` from children.js: the identity
passthrough documented as not part of the stable public contract. -/
def getSerializeCapableElement {α : Type} (children : List (Child α)) : List (Child α) :=
  children

/-- Modelled from the spec: getTextElements, the text-extraction collaborator
imported from the element package (not under src/), returns every string
fragment of the value depth-first, descending into the children of inline
nodes and ignoring attributes. -/
def getTextElements {α : Type} : List (Child α) → List String
  | [] => []
  | Child.text s :: rest => s :: getTextElements rest
  | Child.inline _ ch :: rest => getTextElements ch ++ getTextElements rest

/-- Embedding of `toText` from children.js: pass the children value through
getSerializeCapableElement, extract the text elements and join them with the
empty separator. -/
def toText {α : Type} (children : List (Child α)) : String :=
  String.join (getTextElements (getSerializeCapableElement children))

/-- C7: on a children value consisting purely of string items s1, ..., sn,
`toText` returns exactly the concatenation s1 ++ ... ++ sn, with no separator
and with whitespace preserved. -/
theorem toText_pure_text {α : Type} (ss : List String) :
    toText (ss.map (Child.text : String → Child α)) = String.join ss := by
  have h : getTextElements (ss.map (Child.text : String → Child α)) = ss := by
    induction ss with
    | nil => simp [getTextElements]
    | cons s rest ih => simp [getTextElements, ih]
  unfold toText getSerializeCapableElement
  rw [h]

/-- An argument to the store-level `concat`: a bare item value, or a
reference to an array living in the store. -/
inductive HArg (α : Type) : Type where
  | item : Child α → HArg α
  | ref : Nat → HArg α

/-- Reads the array stored at reference r.  The store is a list of arrays
indexed by allocation order. -/
def readStore {α : Type} (s : List (List (Child α))) (r : Nat) : List (Child α) :=
  (s.get? r).getD []

/-- One mutation performed by the `concat` loop on the store: overwrite the
result array at reference r with the effect of the loop body on it. -/
def writeStep {α : Type} (s : List (List (Child α))) (r : Nat) (c : Child α) :
    List (List (Child α)) :=
  s.set r (step (readStore s r) c)

/-- Reads the array an argument denotes in a given store: castArray of the
item, or the referenced array. -/
def derefArg {α : Type} (s : List (List (Child α))) : HArg α → List (Child α)
  | HArg.item c => [c]
  | HArg.ref j => readStore s j

/-- Value-level view of a store argument, read in the initial store. -/
def argValue {α : Type} (s0 : List (List (Child α))) : HArg α → Arg α
  | HArg.item c => Arg.item c
  | HArg.ref j => Arg.seq (readStore s0 j)

/-- Store-level embedding of `concat`: allocate a fresh result array at the
next free reference, then run the two nested loops of children.js, each
iteration mutating only the result array in place.  Returns the final store
and the reference of the result array. -/
def concatStore {α : Type} (s0 : List (List (Child α))) (args : List (HArg α)) :
    List (List (Child α)) × Nat :=
  (args.foldl (fun s a => (derefArg s a).foldl (fun s2 c => writeStep s2 s0.length c) s)
    (s0 ++ [[]]), s0.length)

theorem writeStep_frame {α : Type} (s : List (List (Child α))) (r : Nat) (c : Child α)
    (i : Nat) (h : i ≠ r) : (writeStep s r c).get? i = s.get? i := by
  unfold writeStep
  exact List.get?_set_ne _ _ (fun he => h he.symm)

theorem innerFold_spec {α : Type} (n : Nat) (cs : List (Child α)) :
    ∀ s : List (List (Child α)), s.length = n + 1 →
      (cs.foldl (fun s2 c => writeStep s2 n c) s).length = n + 1 ∧
      (∀ i, i < n → (cs.foldl (fun s2 c => writeStep s2 n c) s).get? i = s.get? i) ∧
      readStore (cs.foldl (fun s2 c => writeStep s2 n c) s) n
        = List.foldl step (readStore s n) cs := by
  induction cs with
  | nil => intro s hs; exact ⟨hs, fun _ _ => rfl, rfl⟩
  | cons c rest ih =>
    intro s hs
    have hlen : (writeStep s n c).length = n + 1 := by
      unfold writeStep; rw [List.length_set]; exact hs
    have hread : readStore (writeStep s n c) n = step (readStore s n) c := by
      unfold writeStep readStore
      rw [List.get?_set_eq_of_lt]
      · rfl
      · rw [hs]; omega
    obtain ⟨h1, h2, h3⟩ := ih (writeStep s n c) hlen
    refine ⟨h1, ?_, ?_⟩
    · intro i hi
      simp only [List.foldl_cons]
      rw [h2 i hi, writeStep_frame s n c i (by omega)]
    · simp only [List.foldl_cons]
      rw [h3, hread]

theorem outerFold_spec {α : Type} (s0 : List (List (Child α))) (args : List (HArg α)) :
    ∀ s : List (List (Child α)),
      (∀ j, HArg.ref j ∈ args → j < s0.length) →
      s.length = s0.length + 1 →
      (∀ i, i < s0.length → s.get? i = s0.get? i) →
      (args.foldl
          (fun s a => (derefArg s a).foldl (fun s2 c => writeStep s2 s0.length c) s)
          s).length = s0.length + 1 ∧
      (∀ i, i < s0.length →
        (args.foldl
            (fun s a => (derefArg s a).foldl (fun s2 c => writeStep s2 s0.length c) s)
            s).get? i = s0.get? i) ∧
      readStore
          (args.foldl
            (fun s a => (derefArg s a).foldl (fun s2 c => writeStep s2 s0.length c) s)
            s)
          s0.length
        = List.foldl step (readStore s s0.length) (flattenArgs (args.map (argValue s0))) := by
  induction args with
  | nil =>
    intro s _ hs hpre
    exact ⟨hs, fun i hi => (hpre i hi), by simp [flattenArgs]⟩
  | cons a rest ih =>
    intro s hargs hs hpre
    have hderef : derefArg s a = castArray (argValue s0 a) := by
      cases a with
      | item c => rfl
      | ref j =>
        have hj : j < s0.length := hargs j (List.mem_cons_self _ _)
        show readStore s j = readStore s0 j
        unfold readStore
        rw [hpre j hj]
    obtain ⟨h1, h2, h3⟩ := innerFold_spec s0.length (derefArg s a) s hs
    have hpre2 : ∀ i, i < s0.length →
        ((derefArg s a).foldl (fun s2 c => writeStep s2 s0.length c) s).get? i
          = s0.get? i := by
      intro i hi
      rw [h2 i hi, hpre i hi]
    have hargs2 : ∀ j, HArg.ref j ∈ rest → j < s0.length := by
      intro j hj
      exact hargs j (List.mem_cons_of_mem _ hj)
    obtain ⟨g1, g2, g3⟩ :=
      ih ((derefArg s a).foldl (fun s2 c => writeStep s2 s0.length c) s) hargs2 h1 hpre2
    refine ⟨g1, g2, ?_⟩
    rw [List.foldl_cons, g3, h3, hderef]
    have hflat : flattenArgs ((a :: rest).map (argValue s0))
        = castArray (argValue s0 a) ++ flattenArgs (rest.map (argValue s0)) := by
      simp [flattenArgs]
    rw [hflat, List.foldl_append]

/-- C8: `concat` mutates none of its inputs: in the store model every array
existing before the call reads identically after the call, the returned
reference is the freshly allocated one and in particular distinct from every
reference passed in, and the array it holds is exactly the value the pure
embedding of `concat` computes. -/
theorem concat_no_mutation {α : Type} (s0 : List (List (Child α))) (args : List (HArg α))
    (hargs : ∀ j, HArg.ref j ∈ args → j < s0.length) :
    (∀ i, i < s0.length → (concatStore s0 args).1.get? i = s0.get? i) ∧
    (∀ j, HArg.ref j ∈ args → j ≠ (concatStore s0 args).2) ∧
    readStore (concatStore s0 args).1 (concatStore s0 args).2
      = concat (args.map (argValue s0)) := by
  have hs : (s0 ++ [([] : List (Child α))]).length = s0.length + 1 := by simp
  have hpre : ∀ i, i < s0.length →
      (s0 ++ [([] : List (Child α))]).get? i = s0.get? i := by
    intro i hi
    exact List.get?_append hi
  obtain ⟨h1, h2, h3⟩ := outerFold_spec s0 args (s0 ++ [[]]) hargs hs hpre
  refine ⟨h2, ?_, ?_⟩
  · intro j hj
    have := hargs j hj
    show j ≠ s0.length
    omega
  · have hinit : readStore (s0 ++ [([] : List (Child α))]) s0.length = [] := by
      unfold readStore
      rw [List.get?_concat_length]
      rfl
    simp only [concatStore]
    rw [h3, hinit, ← concat_eq_foldl]

/-- C8 witness: a one-array store with the string a, passed by reference
together with the bare string b: after the call the input array still reads
the string a, and the fresh result array reads the merged string ab. -/
theorem concat_no_mutation_witness :
    (concatStore [[(Child.text "a" : Child Unit)]]
        [HArg.ref 0, HArg.item (Child.text "b")]).1.get? 0
      = some [Child.text "a"] ∧
    readStore
        (concatStore [[(Child.text "a" : Child Unit)]]
          [HArg.ref 0, HArg.item (Child.text "b")]).1
        (concatStore [[(Child.text "a" : Child Unit)]]
          [HArg.ref 0, HArg.item (Child.text "b")]).2
      = [Child.text "ab"] := by
  have hargs : ∀ j, HArg.ref j ∈
      [HArg.ref 0, HArg.item ((Child.text "b" : Child Unit))] →
      j < [[(Child.text "a" : Child Unit)]].length := by
    intro j hj
    simp only [List.mem_cons, List.not_mem_nil, or_false] at hj
    rcases hj with hj | hj
    · cases hj
      decide
    · cases hj
  have h := concat_no_mutation [[(Child.text "a" : Child Unit)]]
    [HArg.ref 0, HArg.item (Child.text "b")] hargs
  refine ⟨?_, ?_⟩
  · rw [h.1 0 (by decide)]
    rfl
  · rw [h.2.2]
    rfl

end Children
